import Mathlib

/-!
Verification of the geozones pipeline orchestrator (`geozones.py`).

The development shallowly embeds the orchestration layer of the source:
the level selection computed by the `cli` group callback, the stage
commands (`download`, `load`, `aggregate`, `postprocess`, `dist`,
`full`, `status`) and their observable effects on the zone store,
modelled as explicit traces and pure functions over a list-based store.
-/

namespace Geozones

/-- A registered administrative level.  In the source a `Level` carries an
`id`, a `label`, a list of `parents` (here their ids) and a list of source
`urls` (`geo.root.traverse()` yields such objects). -/
structure Level where
  id : String
  label : String
  parents : List String
  urls : List String
deriving DecidableEq, Repr

/-- Modelled from the spec: `root.traverse()` (module `geo`, not under
`src/`) "produces a sequence of all registered Levels in a forward
topological order"; a level reachable through several parents may occur
more than once, so we model the traversal as an arbitrary list of levels
handed to the selection logic. -/
def Traversal := List Level

/-- Whether the `cli` callback retains level `l` for the requested id list
`ids`: `should_process = not level or l.id in level` in the source. -/
def shouldProcess (ids : List String) (l : Level) : Bool :=
  ids.isEmpty || ids.contains l.id

/-- The accumulator loop of the `cli` group callback:
`for l in root.traverse(): if should_process and l not in levels:
levels.append(l)`. -/
def cliSelectAux (ids : List String) (acc : List Level) :
    List Level → List Level
  | [] => acc
  | l :: rest =>
      if shouldProcess ids l && !(acc.contains l) then
        cliSelectAux ids (acc ++ [l]) rest
      else
        cliSelectAux ids acc rest

/-- The level selection computed at command startup (`ctx.obj['levels']`):
filter the traversal by the requested ids (all levels when none are
requested), keeping first occurrences only. -/
def cliSelect (t : List Level) (ids : List String) : List Level :=
  cliSelectAux ids [] t

lemma mem_cliSelectAux (ids : List String) (x : Level) :
    ∀ (t acc : List Level),
      x ∈ cliSelectAux ids acc t ↔
        x ∈ acc ∨ (x ∈ t ∧ shouldProcess ids x = true) := by
  intro t
  induction t with
  | nil => intro acc; simp [cliSelectAux]
  | cons l rest ih =>
      intro acc
      by_cases hp : (shouldProcess ids l && !(acc.contains l)) = true
      · rw [cliSelectAux, if_pos hp, ih]
        simp only [Bool.and_eq_true, Bool.not_eq_true'] at hp
        constructor
        · rintro (hmem | ⟨hr, hx⟩)
          · rcases List.mem_append.mp hmem with h | h
            · exact Or.inl h
            · simp only [List.mem_singleton] at h
              exact Or.inr ⟨h ▸ List.mem_cons_self l rest, h ▸ hp.1⟩
          · exact Or.inr ⟨List.mem_cons_of_mem _ hr, hx⟩
        · rintro (hmem | ⟨hr, hx⟩)
          · exact Or.inl (List.mem_append.mpr (Or.inl hmem))
          · rcases List.mem_cons.mp hr with h | h
            · exact Or.inl (List.mem_append.mpr (Or.inr (by simp [h])))
            · exact Or.inr ⟨h, hx⟩
      · rw [cliSelectAux, if_neg hp, ih]
        simp only [Bool.and_eq_true, Bool.not_eq_true', not_and] at hp
        constructor
        · rintro (hmem | ⟨hr, hx⟩)
          · exact Or.inl hmem
          · exact Or.inr ⟨List.mem_cons_of_mem _ hr, hx⟩
        · rintro (hmem | ⟨hr, hx⟩)
          · exact Or.inl hmem
          · rcases List.mem_cons.mp hr with h | h
            · subst h
              have := hp hx
              exact Or.inl (List.mem_of_elem_eq_true (by simpa using this))
            · exact Or.inr ⟨h, hx⟩

lemma nodup_cliSelectAux (ids : List String) :
    ∀ (t acc : List Level), acc.Nodup → (cliSelectAux ids acc t).Nodup := by
  intro t
  induction t with
  | nil => intro acc h; simpa [cliSelectAux] using h
  | cons l rest ih =>
      intro acc hacc
      by_cases hp : (shouldProcess ids l && !(acc.contains l)) = true
      · rw [cliSelectAux, if_pos hp]
        refine ih _ ?_
        simp only [Bool.and_eq_true, Bool.not_eq_true'] at hp
        have hnot : l ∉ acc := by simpa using hp.2
        simpa [List.nodup_append] using ⟨hacc, hnot⟩
      · rw [cliSelectAux, if_neg hp]
        exact ih _ hacc

lemma cliSelectAux_append (ids : List String) :
    ∀ (t acc : List Level),
      ∃ r : List Level, cliSelectAux ids acc t = acc ++ r ∧ r.Sublist t := by
  intro t
  induction t with
  | nil => intro acc; exact ⟨[], by simp [cliSelectAux], List.Sublist.refl []⟩
  | cons l rest ih =>
      intro acc
      by_cases hp : (shouldProcess ids l && !(acc.contains l)) = true
      · rw [cliSelectAux, if_pos hp]
        obtain ⟨r, hr, hs⟩ := ih (acc ++ [l])
        exact ⟨l :: r, by simpa using hr, List.Sublist.cons₂ l hs⟩
      · rw [cliSelectAux, if_neg hp]
        obtain ⟨r, hr, hs⟩ := ih acc
        exact ⟨r, hr, List.Sublist.cons l hs⟩

lemma cliSelect_sublist (t : List Level) (ids : List String) :
    (cliSelect t ids).Sublist t := by
  obtain ⟨r, hr, hs⟩ := cliSelectAux_append ids t []
  simpa [cliSelect, hr] using hs

lemma cliSelect_nodup (t : List Level) (ids : List String) :
    (cliSelect t ids).Nodup :=
  nodup_cliSelectAux ids t [] List.nodup_nil

lemma mem_cliSelect (t : List Level) (ids : List String) (x : Level) :
    x ∈ cliSelect t ids ↔
      x ∈ t ∧ (ids = [] ∨ x.id ∈ ids) := by
  rw [cliSelect, mem_cliSelectAux]
  simp only [List.not_mem_nil, false_or]
  constructor
  · rintro ⟨hmem, hx⟩
    refine ⟨hmem, ?_⟩
    simp only [shouldProcess, Bool.or_eq_true, List.isEmpty_iff] at hx
    rcases hx with h | h
    · exact Or.inl h
    · exact Or.inr (by simpa using h)
  · rintro ⟨hmem, hx⟩
    refine ⟨hmem, ?_⟩
    simp only [shouldProcess, Bool.or_eq_true, List.isEmpty_iff]
    rcases hx with h | h
    · exact Or.inl h
    · exact Or.inr (by simpa using h)

lemma cliSelectAux_eq_filter (ids : List String) :
    ∀ (t acc : List Level), t.Nodup → (∀ x ∈ t, x ∉ acc) →
      cliSelectAux ids acc t = acc ++ t.filter (shouldProcess ids) := by
  intro t
  induction t with
  | nil => intro acc _ _; simp [cliSelectAux]
  | cons l rest ih =>
      intro acc hnd hdisj
      have hlacc : l ∉ acc := hdisj l (List.mem_cons_self l rest)
      have hcont : acc.contains l = false := by simpa using hlacc
      have hrest : rest.Nodup := (List.nodup_cons.mp hnd).2
      have hlrest : l ∉ rest := (List.nodup_cons.mp hnd).1
      by_cases hsp : shouldProcess ids l = true
      · rw [cliSelectAux, if_pos (by simp [hsp, hcont, hlacc])]
        rw [ih (acc ++ [l]) hrest ?_]
        · simp [List.filter_cons, hsp]
        · intro x hx
          simp only [List.mem_append, List.mem_singleton, not_or]
          exact ⟨hdisj x (List.mem_cons_of_mem _ hx),
                 fun h => hlrest (h ▸ hx)⟩
      · rw [cliSelectAux,
            if_neg (by simp only [Bool.and_eq_true]; exact fun h => hsp h.1)]
        rw [ih acc hrest (fun x hx => hdisj x (List.mem_cons_of_mem _ hx))]
        simp [List.filter_cons, hsp]

lemma cliSelect_eq_filter (t : List Level) (ids : List String)
    (h : t.Nodup) : cliSelect t ids = t.filter (shouldProcess ids) := by
  simpa [cliSelect] using cliSelectAux_eq_filter ids t [] h (by simp)

/-- C1: the level selection computed at command startup is a duplicate-free
subsequence of `root.traverse()` holding exactly the traversed levels whose
id is in the requested list (all of them when the list is empty); on a
duplicate-free traversal it is literally that filtered subsequence, and the
whole traversal when no ids are requested. -/
theorem cli_selection_correct (t : List Level) (ids : List String) :
    (cliSelect t ids).Sublist t ∧
    (cliSelect t ids).Nodup ∧
    (∀ x : Level, x ∈ cliSelect t ids ↔ x ∈ t ∧ (ids = [] ∨ x.id ∈ ids)) ∧
    (t.Nodup → cliSelect t ids = t.filter (shouldProcess ids)) ∧
    (t.Nodup → ids = [] → cliSelect t ids = t) := by
  refine ⟨cliSelect_sublist t ids, cliSelect_nodup t ids,
    fun x => mem_cliSelect t ids x, fun h => cliSelect_eq_filter t ids h,
    fun h hids => ?_⟩
  rw [cliSelect_eq_filter t ids h]
  exact List.filter_eq_self.mpr (fun x _ => by simp [shouldProcess, hids])

/-- An example pair of registered levels used as concrete inputs. -/
def countryLevel : Level :=
  { id := "country", label := "Country", parents := [],
    urls := ["http://example.com/c.zip"] }

/-- A second example level, child of `countryLevel`, without sources. -/
def regionLevel : Level :=
  { id := "country/region", label := "Region", parents := ["country"],
    urls := [] }

/-- C1 witness: on the two example levels with no requested ids, the
selection equals the full traversal. -/
theorem cli_selection_correct_witness :
    cliSelect [countryLevel, regionLevel] [] = [countryLevel, regionLevel] :=
  (cli_selection_correct [countryLevel, regionLevel] []).2.2.2.2
    (by decide) rfl

/-- The outcome of the `cli` callback as seen by the user: the source
performs no validation of the requested ids, so it always succeeds with
the computed selection — there is no error path. -/
def cliRun (t : List Level) (ids : List String) :
    Except String (List Level) :=
  Except.ok (cliSelect t ids)

/-- C8 counterexample: requesting the unregistered id "bogus" against a
registry holding only `countryLevel` reports no user input error — the
callback succeeds with an empty selection, the unknown id having been
silently dropped. -/
theorem cli_unknown_id_counterexample :
    cliRun [countryLevel] ["bogus"] = Except.ok [] ∧
    cliSelect [countryLevel] ["bogus"] = [] := ⟨rfl, rfl⟩

/-- C8 (amended): an id matching no registered level is silently dropped:
the cli callback never reports an error, every selected level's id was
requested (when any id was), and a request consisting solely of
unrecognised ids yields the empty selection, over which every stage then
runs vacuously. -/
theorem cli_unknown_id_silently_dropped (t : List Level) (ids : List String) :
    (∃ ls, cliRun t ids = Except.ok ls) ∧
    (ids ≠ [] → ∀ x ∈ cliSelect t ids, x.id ∈ ids) ∧
    (ids ≠ [] → (∀ i ∈ ids, i ∉ t.map Level.id) → cliSelect t ids = []) := by
  refine ⟨⟨cliSelect t ids, rfl⟩, fun hne x hx => ?_, fun hne hunk => ?_⟩
  · rcases (mem_cliSelect t ids x).mp hx with ⟨_, h | h⟩
    · exact absurd h hne
    · exact h
  · rw [List.eq_nil_iff_forall_not_mem]
    intro x hx
    rcases (mem_cliSelect t ids x).mp hx with ⟨hmem, h | h⟩
    · exact hne h
    · exact hunk x.id h (List.mem_map_of_mem Level.id hmem)

/-- C8 witness: requesting only the unknown id "bogus" yields the empty
selection without any error. -/
theorem cli_unknown_id_silently_dropped_witness :
    cliSelect [countryLevel] ["bogus"] = [] :=
  (cli_unknown_id_silently_dropped [countryLevel] ["bogus"]).2.2
    (by decide) (by decide)

/-! ### The `download` command -/

/-- The URL comprehension of `download`:
`urls = (level.urls for level in levels if level.urls)` flattened —
levels with an empty url list contribute nothing. -/
def collectUrls : List Level → List String
  | [] => []
  | l :: rest => (if l.urls.isEmpty then [] else l.urls) ++ collectUrls rest

/-- The set of URLs the `download` command iterates over:
`set([url for lst in urls for url in lst])`.  A Python set holds each
distinct element once; we model it as the deduplicated flattened list. -/
def downloadUrls (levels : List Level) : List String :=
  (collectUrls levels).dedup

lemma mem_collectUrls (levels : List Level) (u : String) :
    u ∈ collectUrls levels ↔ ∃ l ∈ levels, u ∈ l.urls := by
  induction levels with
  | nil => simp [collectUrls]
  | cons l rest ih =>
      by_cases he : l.urls.isEmpty = true
      · rw [collectUrls, if_pos he]
        have : l.urls = [] := List.isEmpty_iff.mp he
        simp [ih, this]
      · rw [collectUrls, if_neg he]
        simp [ih]

/-- C9: the `download` command fetches each distinct URL of the selected
levels exactly once: its iteration list is duplicate-free, holds exactly
the union of the levels' url lists, and each of its URLs occurs in it
once. -/
theorem download_fetches_each_url_once (levels : List Level) :
    (downloadUrls levels).Nodup ∧
    (∀ u, u ∈ downloadUrls levels ↔ ∃ l ∈ levels, u ∈ l.urls) ∧
    (∀ u, u ∈ downloadUrls levels → (downloadUrls levels).count u = 1) := by
  refine ⟨List.nodup_dedup _, fun u => ?_, fun u hu => ?_⟩
  · rw [downloadUrls, List.mem_dedup]
    exact mem_collectUrls levels u
  · exact List.count_eq_one_of_mem (List.nodup_dedup _) hu

/-- C9 witness: on the example levels, the single shared URL is fetched
exactly once. -/
theorem download_fetches_each_url_once_witness :
    (downloadUrls [countryLevel, regionLevel]).count
      "http://example.com/c.zip" = 1 :=
  (download_fetches_each_url_once [countryLevel, regionLevel]).2.2
    "http://example.com/c.zip" (by decide)

/-! ### The `aggregate` command -/

/-- The `aggregate` command loop:
`for level in reversed(ctx.obj['levels']): total += level.build_aggregates(zones)`.
`agg` stands for the external per-level `build_aggregates` count; the first
component records the invocation order, the second the accumulated total. -/
def aggregateCmd (levels : List Level) (agg : Level → Nat) :
    List Level × Nat :=
  levels.reverse.foldl (fun acc l => (acc.1 ++ [l], acc.2 + agg l)) ([], 0)

lemma aggregate_foldl (agg : Level → Nat) :
    ∀ (ls : List Level) (calls : List Level) (tot : Nat),
      ls.foldl (fun acc l => (acc.1 ++ [l], acc.2 + agg l)) (calls, tot) =
        (calls ++ ls, tot + (ls.map agg).sum) := by
  intro ls
  induction ls with
  | nil => intro calls tot; simp
  | cons l rest ih =>
      intro calls tot
      rw [List.foldl_cons, ih]
      simp [Nat.add_assoc]

/-- C2: `aggregate` calls `build_aggregates` once per selected level, in
the exact reverse of the selection's forward order, and its reported total
is the sum of the per-level aggregation counts. -/
theorem aggregate_reverse_order (t : List Level) (ids : List String)
    (agg : Level → Nat) :
    (aggregateCmd (cliSelect t ids) agg).1 = (cliSelect t ids).reverse ∧
    (aggregateCmd (cliSelect t ids) agg).2 =
      ((cliSelect t ids).map agg).sum ∧
    (∀ l ∈ cliSelect t ids,
      ((aggregateCmd (cliSelect t ids) agg).1).count l = 1) := by
  have h := aggregate_foldl agg (cliSelect t ids).reverse [] 0
  refine ⟨?_, ?_, ?_⟩
  · rw [aggregateCmd, h]; simp
  · rw [aggregateCmd, h]; simp [List.sum_reverse]
  · intro l hl
    rw [aggregateCmd, h]
    simp only [List.nil_append, List.count_reverse]
    exact List.count_eq_one_of_mem (cliSelect_nodup t ids) hl

/-- C2 witness: on the example levels with no id filter, the country level
is aggregated exactly once, last. -/
theorem aggregate_reverse_order_witness :
    ((aggregateCmd (cliSelect [countryLevel, regionLevel] [])
        (fun l => l.urls.length)).1).count countryLevel = 1 :=
  (aggregate_reverse_order [countryLevel, regionLevel] []
      (fun l => l.urls.length)).2.2 countryLevel (by decide)

/-! ### The `load` command: store-effect trace -/

/-- An observable operation the `load` command performs on the zone
collection: `zones.drop()`, `zones.create_index(...)`, or a per-level
`level.load(DL_DIR, zones)` (the only operation that writes zone
records). -/
inductive StoreEvent where
  | drop : StoreEvent
  | createIndex : List String → StoreEvent
  | levelLoad : String → StoreEvent
deriving DecidableEq, Repr

def isCreateIndex : StoreEvent → Bool
  | StoreEvent.createIndex _ => true
  | _ => false

def isLevelLoad : StoreEvent → Bool
  | StoreEvent.levelLoad _ => true
  | _ => false

/-- The three indexes `load` creates, in source order. -/
def indexKeys : List (List String) :=
  [["level", "code"], ["level", "keys"], ["parents"]]

/-- Everything `load` does to the store before the per-level loop: the
optional `drop` (only under the flag), then the three `create_index`
calls. -/
def loadPrelude (dropFlag : Bool) : List StoreEvent :=
  (if dropFlag then [StoreEvent.drop] else []) ++
    indexKeys.map StoreEvent.createIndex

/-- The store-effect trace of the `load` command: optional drop, index
creation, then one `level.load` per selected level in forward order. -/
def loadCmd (levels : List Level) (dropFlag : Bool) : List StoreEvent :=
  loadPrelude dropFlag ++ levels.map (fun l => StoreEvent.levelLoad l.id)

lemma loadPrelude_no_levelLoad (dropFlag : Bool) :
    ∀ e ∈ loadPrelude dropFlag, isLevelLoad e = false := by
  cases dropFlag <;> decide

lemma loadSuffix_no_createIndex (levels : List Level) :
    ∀ e ∈ levels.map (fun l => StoreEvent.levelLoad l.id),
      isCreateIndex e = false := by
  intro e he
  rcases List.mem_map.mp he with ⟨l, _, rfl⟩
  rfl

/-- C5: the `load` command drops the zone collection exactly when the
`--drop` flag is given; without the flag every store operation it performs
is an index creation or a per-level keyed load — nothing is removed
wholesale. -/
theorem load_drop_iff_flag (levels : List Level) (dropFlag : Bool) :
    (StoreEvent.drop ∈ loadCmd levels dropFlag ↔ dropFlag = true) ∧
    (∀ e ∈ loadCmd levels false,
      isCreateIndex e = true ∨ isLevelLoad e = true) := by
  have hpre : loadPrelude false =
      [StoreEvent.createIndex ["level", "code"],
       StoreEvent.createIndex ["level", "keys"],
       StoreEvent.createIndex ["parents"]] := rfl
  constructor
  · cases dropFlag with
    | true => simp [loadCmd, loadPrelude, indexKeys]
    | false => simp [loadCmd, loadPrelude, indexKeys]
  · intro e he
    rcases List.mem_append.mp he with h | h
    · left
      rw [hpre] at h
      simp only [List.mem_cons, List.not_mem_nil, or_false] at h
      rcases h with rfl | rfl | rfl <;> rfl
    · right
      rcases List.mem_map.mp h with ⟨l, _, rfl⟩
      rfl

/-- C5 witness: loading the example level without `--drop` never drops,
and the first event is an index creation. -/
theorem load_drop_iff_flag_witness :
    ¬ (false = true) ∧
    (isCreateIndex (StoreEvent.createIndex ["parents"]) = true ∨
      isLevelLoad (StoreEvent.createIndex ["parents"]) = true) :=
  ⟨by decide,
   (load_drop_iff_flag [countryLevel] false).2
     (StoreEvent.createIndex ["parents"]) (by decide)⟩

/-- C6: in every `load` run all three index creations are present in the
trace, and every index creation occurs strictly before every per-level
load — no store write precedes index creation. -/
theorem load_indexes_before_writes (levels : List Level) (dropFlag : Bool) :
    (∀ k ∈ indexKeys,
      StoreEvent.createIndex k ∈ loadCmd levels dropFlag) ∧
    (∀ i j (hi : i < (loadCmd levels dropFlag).length)
        (hj : j < (loadCmd levels dropFlag).length),
      isCreateIndex ((loadCmd levels dropFlag).get ⟨i, hi⟩) = true →
      isLevelLoad ((loadCmd levels dropFlag).get ⟨j, hj⟩) = true →
      i < j) := by
  constructor
  · intro k hk
    exact List.mem_append.mpr
      (Or.inl (List.mem_append.mpr (Or.inr (List.mem_map_of_mem _ hk))))
  · intro i j hi hj hci hll
    have hilt : i < (loadPrelude dropFlag).length := by
      by_contra hge
      push_neg at hge
      have hj2 : i - (loadPrelude dropFlag).length <
          (levels.map (fun l => StoreEvent.levelLoad l.id)).length := by
        have := hi
        simp only [loadCmd, List.length_append] at this
        omega
      have heq : (loadCmd levels dropFlag).get ⟨i, hi⟩ =
          (levels.map (fun l => StoreEvent.levelLoad l.id)).get
            ⟨i - (loadPrelude dropFlag).length, hj2⟩ := by
        simp only [loadCmd, List.get_eq_getElem]
        exact List.getElem_append_right hge
      rw [heq] at hci
      have hmem : (levels.map (fun l => StoreEvent.levelLoad l.id)).get
          ⟨i - (loadPrelude dropFlag).length, hj2⟩ ∈
          levels.map (fun l => StoreEvent.levelLoad l.id) :=
        List.get_mem _ _ _
      rw [loadSuffix_no_createIndex levels _ hmem] at hci
      cases hci
    have hjge : (loadPrelude dropFlag).length ≤ j := by
      by_contra hlt
      push_neg at hlt
      have heq : (loadCmd levels dropFlag).get ⟨j, hj⟩ =
          (loadPrelude dropFlag).get ⟨j, hlt⟩ := by
        simp only [loadCmd, List.get_eq_getElem]
        exact List.getElem_append_left hlt
      rw [heq] at hll
      have hmem : (loadPrelude dropFlag).get ⟨j, hlt⟩ ∈
          loadPrelude dropFlag := List.get_mem _ _ _
      rw [loadPrelude_no_levelLoad dropFlag _ hmem] at hll
      cases hll
    omega

/-- C6 witness: in the concrete trace for the example level without the
drop flag, the first index creation (position 0) precedes the level load
(position 3). -/
theorem load_indexes_before_writes_witness :
    StoreEvent.createIndex ["parents"] ∈ loadCmd [countryLevel] false ∧
    (0 : Nat) < 3 :=
  ⟨(load_indexes_before_writes [countryLevel] false).1 ["parents"]
      (by decide),
   (load_indexes_before_writes [countryLevel] false).2 0 3
      (by decide) (by decide) (by decide) (by decide)⟩

/-! ### The `full` composite command -/

/-- One stage invocation, with the configuration it receives. -/
inductive Stage where
  | download : Stage
  | load : Bool → Stage
  | aggregate : Stage
  | postprocess : Option String → Stage
  | dist : Bool → Bool → Bool → String → Option String → Stage
deriving DecidableEq, Repr

/-- `dist`'s option values: `pretty`, `split`, `compress`,
`serialization`, `keys`. -/
structure DistFlags where
  pretty : Bool
  split : Bool
  compress : Bool
  serialization : String
  keys : Option String
deriving DecidableEq, Repr

/-- The click defaults of the standalone `dist` command:
pretty off, split off, the compress toggle defaulting to TRUE,
json serialization, no key filter. -/
def distDefaults : DistFlags :=
  { pretty := false, split := false, compress := true,
    serialization := "json", keys := none }

/-- The click defaults of the options `full` itself declares and forwards
to `dist`: identical except that the compress toggle of `full`
defaults to FALSE. -/
def fullDistDefaults : DistFlags :=
  { pretty := false, split := false, compress := false,
    serialization := "json", keys := none }

def downloadStages : List Stage := [Stage.download]

def loadStages (dropFlag : Bool) : List Stage := [Stage.load dropFlag]

def aggregateStages : List Stage := [Stage.aggregate]

def postprocessStages (only : Option String) : List Stage :=
  [Stage.postprocess only]

def distStages (f : DistFlags) : List Stage :=
  [Stage.dist f.pretty f.split f.compress f.serialization f.keys]

/-- The `full` command: `ctx.invoke(download)`, `ctx.invoke(load,
drop=drop)`, `ctx.invoke(aggregate)`, `ctx.invoke(postprocess)`,
`ctx.invoke(dist, pretty=..., split=..., compress=..., serialization=...,
keys=...)`, in that order. -/
def fullStages (dropFlag : Bool) (f : DistFlags) : List Stage :=
  downloadStages ++ loadStages dropFlag ++ aggregateStages ++
    postprocessStages none ++ distStages f

/-- C3 counterexample: running `full` with no flags is not the same as
running the five commands with no flags: `full`'s `--compress` default is
`False` while standalone `dist`'s is `True`, so the defaults of the
stages are not preserved by the composite. -/
theorem full_defaults_counterexample :
    fullStages false fullDistDefaults ≠
      downloadStages ++ loadStages false ++ aggregateStages ++
        postprocessStages none ++ distStages distDefaults ∧
    fullDistDefaults.compress = false ∧ distDefaults.compress = true := by
  refine ⟨?_, rfl, rfl⟩
  decide

/-- C3 (amended): `full` invokes download, load, aggregate, postprocess
and dist once each in that order, forwarding `drop` to load and the
explicitly given dist flags to dist; the equivalence with running the
commands separately holds for the flag values actually passed, but the
omitted-flag defaults are `full`'s own (compress defaults to off) rather
than each stage's. -/
theorem full_forwards_explicit_flags (dropFlag : Bool) (f : DistFlags) :
    fullStages dropFlag f =
      [Stage.download, Stage.load dropFlag, Stage.aggregate,
       Stage.postprocess none,
       Stage.dist f.pretty f.split f.compress f.serialization f.keys] ∧
    fullStages dropFlag f =
      downloadStages ++ loadStages dropFlag ++ aggregateStages ++
        postprocessStages none ++ distStages f ∧
    fullStages dropFlag fullDistDefaults =
      downloadStages ++ loadStages dropFlag ++ aggregateStages ++
        postprocessStages none ++
        distStages { distDefaults with compress := false } :=
  ⟨rfl, rfl, rfl⟩

/-! ### The `dist` command: split vs non-split record counts -/

/-- A persisted zone record as the exporter and `status` see it: the
`level` field both filter on, the `code` of the unique key, and the
optional tracked properties `status` counts. -/
structure Zone where
  level : String
  code : String
  population : Option Int
  area : Option Int
  wikipedia : Option String
deriving DecidableEq, Repr

/-- The query `geozones.find({'level': level_id})` used by split-mode
`dist` and by the per-level count of `status`. -/
def findByLevel (store : List Zone) (lid : String) : List Zone :=
  store.filter (fun z => z.level == lid)

/-- The query `geozones.find({'level': {'$in': level_ids}})` used by
non-split `dist`. -/
def findByLevels (store : List Zone) (lids : List String) : List Zone :=
  store.filter (fun z => lids.contains z.level)

/-- Total number of zone records split-mode `dist` writes across its
per-level files. -/
def distSplitTotal (store : List Zone) (lids : List String) : Nat :=
  (lids.map (fun lid => (findByLevel store lid).length)).sum

/-- Number of zone records non-split `dist` writes into its single zones
file. -/
def distNonSplitTotal (store : List Zone) (lids : List String) : Nat :=
  (findByLevels store lids).length

lemma sum_indicator (x : String) :
    ∀ lids : List String, lids.Nodup →
      (lids.map (fun lid => if x = lid then (1 : Nat) else 0)).sum =
        if x ∈ lids then 1 else 0 := by
  intro lids
  induction lids with
  | nil => intro _; simp
  | cons lid rest ih =>
      intro hnd
      have hrest := (List.nodup_cons.mp hnd).2
      have hnot := (List.nodup_cons.mp hnd).1
      by_cases hx : x = lid
      · subst hx
        simp [ih hrest, hnot]
      · simp [List.map_cons, List.sum_cons, hx, ih hrest, List.mem_cons]

lemma distSplit_eq_nonSplit (lids : List String) (hnd : lids.Nodup) :
    ∀ store : List Zone,
      distSplitTotal store lids = distNonSplitTotal store lids := by
  intro store
  induction store with
  | nil => simp [distSplitTotal, distNonSplitTotal, findByLevel, findByLevels]
  | cons z s ih =>
      have hmap : lids.map (fun lid => (findByLevel (z :: s) lid).length) =
          lids.map (fun lid =>
            (if z.level = lid then 1 else 0) +
              (findByLevel s lid).length) := by
        refine List.map_congr_left (fun lid _ => ?_)
        by_cases hz : z.level = lid
        · simp [findByLevel, List.filter_cons, hz, Nat.add_comm]
        · simp [findByLevel, List.filter_cons, hz]
      have hsplit : distSplitTotal (z :: s) lids =
          (if z.level ∈ lids then 1 else 0) + distSplitTotal s lids := by
        rw [distSplitTotal, hmap, List.sum_map_add,
          sum_indicator z.level lids hnd]
        rfl
      rw [hsplit, ih]
      simp only [distNonSplitTotal, findByLevels, List.filter_cons]
      by_cases hz : z.level ∈ lids
      · simp [hz, Nat.add_comm]
      · simp [hz]

/-- C4: for every store content and level selection with distinct level
ids, split-mode `dist` writes across its per-level zone files exactly as
many zone records in total as non-split `dist` writes to its single zones
file. -/
theorem dist_split_same_total (store : List Zone) (levels : List Level)
    (hnd : (levels.map Level.id).Nodup) :
    distSplitTotal store (levels.map Level.id) =
      distNonSplitTotal store (levels.map Level.id) :=
  distSplit_eq_nonSplit (levels.map Level.id) hnd store

/-- The selected levels of the worked coverage example: ids `A` and `B`. -/
def levelA : Level := { id := "A", label := "Level A", parents := [], urls := [] }

/-- Second example level for the coverage example. -/
def levelB : Level := { id := "B", label := "Level B", parents := ["A"], urls := [] }

/-- The example store: two zones at level `A` (one with population) and
three zones at level `B` (all with population). -/
def exampleStore : List Zone :=
  [{ level := "A", code := "a1", population := some 10, area := none,
     wikipedia := none },
   { level := "A", code := "a2", population := none, area := none,
     wikipedia := none },
   { level := "B", code := "b1", population := some 1, area := none,
     wikipedia := none },
   { level := "B", code := "b2", population := some 2, area := none,
     wikipedia := none },
   { level := "B", code := "b3", population := some 3, area := none,
     wikipedia := none }]

/-- C4 witness: on the example store and levels the two export modes
write the same number of records. -/
theorem dist_split_same_total_witness :
    distSplitTotal exampleStore ([levelA, levelB].map Level.id) =
      distNonSplitTotal exampleStore ([levelA, levelB].map Level.id) :=
  dist_split_same_total exampleStore [levelA, levelB] (by decide)

/-! ### The `status` command: coverage report -/

/-- The fixed tracked properties of the coverage report:
`properties = ('population', 'area', 'wikipedia')`. -/
def statusProperties : List String := ["population", "area", "wikipedia"]

/-- Whether a zone document possesses the named property
(`{name: {'$exists': True}}`). -/
def hasProp (z : Zone) : String → Bool
  | "population" => z.population.isSome
  | "area" => z.area.isSome
  | "wikipedia" => z.wikipedia.isSome
  | _ => false

/-- The per-level zone count `zones.count({'level': level.id})`. -/
def zoneCount (store : List Zone) (lid : String) : Nat :=
  (findByLevel store lid).length

/-- The value `counts[prop].get(level.id, 0)` in `status`: the number of
zones that possess property `p`, lie in a selected level, and lie in
level `lid` — the grouped count of `countprop(name)` looked up at
`level.id`, defaulting to 0. -/
def countprop (store : List Zone) (sel : List String) (p : String)
    (lid : String) : Nat :=
  (store.filter
    (fun z => hasProp z p && sel.contains z.level && z.level == lid)).length

/-- The running grand total `total` accumulated by the `status` loop. -/
def statusTotal (store : List Zone) (levels : List Level) : Nat :=
  levels.foldl (fun acc l => acc + zoneCount store l.id) 0

/-- The per-property running total `totals[prop]` accumulated by the
`status` loop. -/
def statusPropTotal (store : List Zone) (levels : List Level)
    (p : String) : Nat :=
  levels.foldl
    (fun acc l => acc + countprop store (levels.map Level.id) p l.id) 0

lemma foldl_add_eq_sum (f : Level → Nat) :
    ∀ (ls : List Level) (a : Nat),
      ls.foldl (fun acc l => acc + f l) a = a + (ls.map f).sum := by
  intro ls
  induction ls with
  | nil => intro a; simp
  | cons l rest ih =>
      intro a
      rw [List.foldl_cons, ih]
      simp [Nat.add_assoc]

/-- C7: the reported TOTAL of `status` is the sum of the per-level zone
counts, each tracked property's overall figure is the sum of its
per-level counts, and on the worked example — level `A` with 2 zones (1
with population) and level `B` with 3 zones (all with population) — the
report reads `A: 1/2`, `B: 3/3`, `TOTAL: 4/5`. -/
theorem status_coverage_report (store : List Zone) (levels : List Level) :
    (statusTotal store levels =
      (levels.map (fun l => zoneCount store l.id)).sum) ∧
    (∀ p, statusPropTotal store levels p =
      (levels.map
        (fun l => countprop store (levels.map Level.id) p l.id)).sum) ∧
    (zoneCount exampleStore "A" = 2 ∧
     countprop exampleStore ([levelA, levelB].map Level.id)
       "population" "A" = 1 ∧
     zoneCount exampleStore "B" = 3 ∧
     countprop exampleStore ([levelA, levelB].map Level.id)
       "population" "B" = 3 ∧
     statusTotal exampleStore [levelA, levelB] = 5 ∧
     statusPropTotal exampleStore [levelA, levelB] "population" = 4) := by
  refine ⟨?_, fun p => ?_, by decide⟩
  · rw [statusTotal, foldl_add_eq_sum]
    simp
  · rw [statusPropTotal, foldl_add_eq_sum]
    simp

/-! ### `status` downloads check vs `download` filenames -/

/-- Python's `os.path.basename`: everything after the last slash (the
accumulator is reset at each `/`). -/
def pyBasename (s : String) : String :=
  ⟨s.data.foldl (fun acc c => if c = '/' then [] else acc ++ [c]) []⟩

/-- Python's `str.strip()`: whitespace removed from both ends. -/
def pyStrip (s : String) : String :=
  ⟨(((s.data.dropWhile Char.isWhitespace).reverse.dropWhile
      Char.isWhitespace).reverse)⟩

/-- The filename whose presence `status` tests:
`basename(url).strip()`. -/
def statusFilename (url : String) : String :=
  pyStrip (pyBasename url)

/-- The files present in the downloads directory once `download` has
fetched `urls`: each is saved under the filename extracted from the HTTP
response headers (`filename, size = extract_meta_from_headers(url)`,
modelled as the oracle `headerName`). -/
def downloadedFiles (headerName : String → String)
    (urls : List String) : List String :=
  urls.map headerName

/-- The presence test of `status` for one url:
`os.path.exists(os.path.join(DL_DIR, filename))`. -/
def statusReportsPresent (files : List String) (url : String) : Bool :=
  files.contains (statusFilename url)

/-- C10: `status` checks for a file named `basename(url).strip()` while
`download` saves under the header-derived name, so whenever the two
differ, a url that was downloaded successfully (its file is in the
downloads directory) is reported absent by `status`. -/
theorem status_reports_downloaded_absent (headerName : String → String)
    (url : String) (hdiff : headerName url ≠ statusFilename url) :
    statusReportsPresent (downloadedFiles headerName [url]) url = false := by
  simp only [statusReportsPresent, downloadedFiles, List.map_cons,
    List.map_nil, List.contains_cons, List.contains_nil, Bool.or_false,
    beq_eq_false_iff_ne, ne_eq]
  exact fun h => hdiff h.symm

/-- C10 witness: a url whose basename (`export.php`) differs from the
header-provided filename (`data.zip`) is reported absent after being
downloaded. -/
theorem status_reports_downloaded_absent_witness :
    statusReportsPresent
      (downloadedFiles (fun _ => "data.zip")
        ["http://example.com/get/export.php"])
      "http://example.com/get/export.php" = false :=
  status_reports_downloaded_absent (fun _ => "data.zip")
    "http://example.com/get/export.php" (by decide)

end Geozones
